import Mathlib

/-!
Verification development for the AI News Orchestrator repository
(`app.py`, `app_selenium_3.py`, `archive/app_selenium_2.py`).

Texts are modelled as `List Char` (Python `str`).  `pyWords` models Python's
`str.split()` (splitting on whitespace runs, dropping empty tokens);
`pyStrip` models `str.strip()`; `sentSplit` models
`re.split(r'(?<=[.?!])\s+', text)`.
-/

namespace NewsOrchestrator

/-- Python whitespace (the characters matched by `str.split()` and `\s`):
space, tab, newline, carriage return, vertical tab, form feed. -/
def isSpace (c : Char) : Bool :=
  c = ' ' || c = '\t' || c = '\n' || c = '\r' || c = '\u000B' || c = '\u000C'

/-- The sentence-ending punctuation of the lookbehind `(?<=[.?!])`. -/
def isPunct (c : Char) : Bool :=
  c = '.' || c = '?' || c = '!'

/-- Model of Python `text.split()`: the maximal runs of non-whitespace
characters of `l`, in order.  (Defined by folding from the right: a
non-space character either starts a new word — when the next character
is whitespace or the end — or extends the first word of the rest.) -/
def pyWords : List Char → List (List Char)
  | [] => []
  | c :: cs =>
    if isSpace c then pyWords cs
    else
      match cs with
      | [] => [[c]]
      | d :: _ =>
        if isSpace d then [c] :: pyWords cs
        else
          match pyWords cs with
          | [] => [[c]]
          | w :: t => (c :: w) :: t

/-- Model of Python `s.strip()`: remove leading and trailing whitespace. -/
def pyStrip (l : List Char) : List Char :=
  ((l.dropWhile isSpace).reverse.dropWhile isSpace).reverse

/-- Model of Python `" ".join(ws)`. -/
def joinSpace : List (List Char) → List Char
  | [] => []
  | [w] => w
  | w :: ws => w ++ ' ' :: joinSpace ws

/-- The groups `l[0:n], l[n:2n], …` produced by
`for i in range(0, len(l), n)` (for `n ≥ 1`). -/
def sliceGroups (n : Nat) : List α → List (List α)
  | [] => []
  | a :: l => (a :: l.take (n - 1)) :: sliceGroups n (l.drop (n - 1))
  termination_by l => l.length
  decreasing_by simp [List.length_drop]; omega

/-- Model of Python `re.split(r'(?<=[.?!])\s+', text)`: split at every
maximal whitespace run that immediately follows one of `.?!`.  Folding
from the right: a punctuation character followed by whitespace starts a
separator, which swallows the leading whitespace of the part after it.
`re.split` always returns at least one (possibly empty) part. -/
def sentSplit : List Char → List (List Char)
  | [] => [[]]
  | c :: cs =>
    match sentSplit cs with
    | [] => [[c]]
    | p :: ps =>
      if isPunct c then
        match p with
        | [] => (c :: p) :: ps
        | d :: _ =>
          if isSpace d then [c] :: p.dropWhile isSpace :: ps
          else (c :: p) :: ps
      else (c :: p) :: ps

namespace AppSelenium3

/-- `chunk_text` of `app_selenium_3.py` (also `app.py`): fixed word-window
splitting.  `words = text.split()`; for `i in range(0, len(words),
max_words)` append `" ".join(words[i:i+max_words])`. -/
def chunk_text (text : List Char) (max_words : Nat) : List (List Char) :=
  (sliceGroups max_words (pyWords text)).map joinSpace

end AppSelenium3

namespace AppSelenium2

/-- The sentence-accumulation loop of `chunk_text` in
`archive/app_selenium_2.py`: for each sentence `s`, if
`len((current + s).split()) < max_words` then `current += " " + s`,
else append `current.strip()` and restart from `s`; finally append
`current.strip()` if it is non-empty. -/
def chunkLoop (max_words : Nat) (current : List Char) :
    List (List Char) → List (List Char)
  | [] => if (pyStrip current).isEmpty then [] else [pyStrip current]
  | s :: ss =>
    if (pyWords (current ++ s)).length < max_words then
      chunkLoop max_words (current ++ ' ' :: s) ss
    else
      pyStrip current :: chunkLoop max_words s ss

/-- `chunk_text` of `archive/app_selenium_2.py`: sentence-boundary-aware
splitting, starting from `re.split(r'(?<=[.?!])\s+', text)` and an empty
accumulator. -/
def chunk_text (text : List Char) (max_words : Nat) : List (List Char) :=
  chunkLoop max_words [] (sentSplit text)

end AppSelenium2

/-! ### The model-call layer (`ask_gpt` and the prompt builders) -/

/-- One outbound model call: the model identifier and the prompt sent. -/
structure Call where
  model : String
  input : String
deriving DecidableEq

/-- The language-model collaborator (`client.responses.create`): given the
model identifier and the prompt, it either returns `output_text` or raises
(modelled as `Except.error` carrying the exception's message `str(e)`). -/
abbrev Oracle := String → String → Except String String

/-- `ask_gpt` of `app_selenium_3.py` / `app.py`: return the model output;
on any exception return the string `f"[GPT Error] {e}"`. -/
def ask_gpt (oracle : Oracle) (prompt : String) (model : String) : String :=
  match oracle model prompt with
  | Except.ok out => out
  | Except.error e => "[GPT Error] " ++ e

/-- Metadata attached to each fetched article (the `metadata` dict built
by the search handler). -/
structure ArticleMetadata where
  title : String
  publisher : String
  published : String
  url : String
deriving DecidableEq

/-- An element of `articles_data`: the article dict built by the search
handler. -/
structure Article where
  title : String
  publisher : String
  published : String
  url : String
  content : List Char
deriving DecidableEq

/-- The `metadata` dict the search handler builds from an article. -/
def metadataOf (a : Article) : ArticleMetadata :=
  ⟨a.title, a.publisher, a.published, a.url⟩

/-- The event-extraction prompt f-string of `extract_events_from_chunk`. -/
def extractPrompt (chunk : List Char) (md : ArticleMetadata) : String :=
  "\nExtract factual events from the article chunk.\n\n### Metadata\nTitle: "
    ++ md.title ++ "\nPublisher: " ++ md.publisher ++ "\nPublished: "
    ++ md.published ++ "\nURL: " ++ md.url ++ "\n\n### Chunk:\n"
    ++ String.mk chunk
    ++ "\n\n### Output:\n- [time or date if known] Event description (source: "
    ++ md.publisher ++ ")\n"

/-- `extract_events_from_chunk` of `app_selenium_3.py`: one `ask_gpt` call
with the extraction prompt and model `gpt-4.1-mini`. -/
def extract_events_from_chunk (oracle : Oracle) (chunk : List Char)
    (metadata : ArticleMetadata) : String :=
  ask_gpt oracle (extractPrompt chunk metadata) "gpt-4.1-mini"

namespace AppSelenium2

/-- The event-extraction prompt f-string of `extract_events_from_chunk` in
`archive/app_selenium_2.py` (its wording differs slightly from the
`app_selenium_3.py` one). -/
def extractPrompt (chunk : List Char) (md : ArticleMetadata) : String :=
  "\nExtract factual events from this article chunk.\n\n### Metadata\nTitle: "
    ++ md.title ++ "\nPublisher: " ++ md.publisher ++ "\nPublished Date: "
    ++ md.published ++ "\nURL: " ++ md.url ++ "\n\n### Chunk:\n"
    ++ String.mk chunk
    ++ "\n\n### Output format (strict):\n- [time or date if known] Event description (source: "
    ++ md.publisher ++ ")\n"

/-- `extract_events_from_chunk` of `archive/app_selenium_2.py`: it calls
`client.responses.create` directly, with **no** `try/except`, so a
raising model call propagates out of the function (an `Except.error`
result). -/
def extract_events_from_chunk (oracle : Oracle) (chunk : List Char)
    (metadata : ArticleMetadata) : Except String String :=
  oracle "gpt-4.1-mini" (extractPrompt chunk metadata)

end AppSelenium2

/-- The merge prompt f-string of `merge_events_to_timeline`. -/
def mergePrompt (events_list : String) : String :=
  "\nThe following events came from multiple articles about the same incident.\n\nYour tasks:\n1. Merge them\n2. Remove duplicates\n3. Resolve conflicts using published dates\n4. Arrange them in chronological order\n5. Output a clean timeline\n\n### EVENTS:\n"
    ++ events_list ++ "\n"

/-- `merge_events_to_timeline` of `app_selenium_3.py`: one `ask_gpt` call
with the merge prompt and model `gpt-4.1`. -/
def merge_events_to_timeline (oracle : Oracle) (events_list : String) : String :=
  ask_gpt oracle (mergePrompt events_list) "gpt-4.1"

/-- The translation prompt f-string of `translate_timeline`. -/
def translatePrompt (timeline target_lang : String) : String :=
  "\nTranslate the following timeline into **" ++ target_lang
    ++ "**.\n\n### TIMELINE:\n" ++ timeline ++ "\n"

/-- `translate_timeline` of `app_selenium_3.py`. -/
def translate_timeline (oracle : Oracle) (timeline target_lang : String) : String :=
  ask_gpt oracle (translatePrompt timeline target_lang) "gpt-4.1-mini"

/-- The highlights prompt f-string of `extract_key_highlights`. -/
def highlightsPrompt (timeline : String) : String :=
  "\nExtract the **5 most important key events** from the following timeline.\n\n### TIMELINE:\n"
    ++ timeline
    ++ "\n\n### Output:\n## 🔑 Key Highlights\n- Bullet points summarizing the most critical events\n"

/-- `extract_key_highlights` of `app_selenium_3.py`. -/
def extract_key_highlights (oracle : Oracle) (timeline : String) : String :=
  ask_gpt oracle (highlightsPrompt timeline) "gpt-4.1-mini"

/-- One per-article block of the `formatted` accumulator in
`compare_sources`, including the `a["content"][:1500] if a["content"]
else ""` truncation. -/
def compareBlock (a : Article) : String :=
  "\n### Source: " ++ a.publisher ++ "\nTitle: " ++ a.title ++ "\nContent:\n"
    ++ String.mk (if a.content.isEmpty then [] else a.content.take 1500) ++ "\n"

/-- The `formatted` accumulator of `compare_sources` (string `+=` over the
articles, starting from the empty string). -/
def compareFormatted (articles : List Article) : String :=
  articles.foldl (fun acc a => acc ++ compareBlock a) ""

/-- The comparison prompt f-string of `compare_sources`. -/
def comparePrompt (formatted : String) : String :=
  "\nCompare the following news sources and highlight:\n\n- Where the articles agree\n- Where they disagree\n- Unique details in each source\n- Contradictions or vague claims\n\n### ARTICLES:\n"
    ++ formatted
    ++ "\n\n### Output:\n## 🆚 Differences Between Sources\n- AGREEMENTS:\n- DISAGREEMENTS:\n- UNIQUE POINTS:\n"

/-- `compare_sources` of `app_selenium_3.py`: one `ask_gpt` call with
model `gpt-4.1`. -/
def compare_sources (oracle : Oracle) (articles : List Article) : String :=
  ask_gpt oracle (comparePrompt (compareFormatted articles)) "gpt-4.1"

/-! ### The search handler (pipeline orchestrator) -/

/-- A feed entry as consumed by the search handler: `entry.link`,
`entry.title`, `entry.get("published", "Unknown")` and
`entry.get("source", {}).get("title", "Unknown")`. -/
structure Entry where
  link : String
  title : String
  published? : Option String
  sourceTitle? : Option String
deriving DecidableEq

/-- The external collaborators of the search handler: redirect resolution,
text extraction (total — `extract_text` catches every exception and
returns `None` on failure), and the model backend. -/
structure SearchEnv where
  resolve : String → String
  extract : String → Option (List Char)
  oracle : Oracle

/-- The article dict appended to `articles_data` for a surviving entry. -/
def mkArticle (env : SearchEnv) (e : Entry) (text : List Char) : Article :=
  { title := e.title
    publisher := e.sourceTitle?.getD "Unknown"
    published := e.published?.getD "Unknown"
    url := env.resolve e.link
    content := text }

/-- The `for idx, entry in enumerate(entries[:10])` loop body: resolve the
URL, extract the text; on `None` warn and `continue`, otherwise append the
article dict. -/
def processEntries (env : SearchEnv) : List Entry → List Article
  | [] => []
  | e :: es =>
    match env.extract (env.resolve e.link) with
    | none => processEntries env es
    | some text => mkArticle env e text :: processEntries env es

/-- The inner `for chunk in chunks` loop: one extractor call per chunk,
appending its result to `all_events` (and recording the model call). -/
def chunkEventsLoop (oracle : Oracle) (md : ArticleMetadata) :
    List (List Char) → List String × List Call → List String × List Call
  | [], acc => acc
  | c :: cs, acc =>
    chunkEventsLoop oracle md cs
      (acc.1 ++ [extract_events_from_chunk oracle c md],
       acc.2 ++ [⟨"gpt-4.1-mini", extractPrompt c md⟩])

/-- The outer `for article in articles_data` loop: chunk the content with
the default bound of 300 words and run the inner loop. -/
def articleEventsLoop (oracle : Oracle) :
    List Article → List String × List Call → List String × List Call
  | [], acc => acc
  | a :: rest, acc =>
    articleEventsLoop oracle rest
      (chunkEventsLoop oracle (metadataOf a)
        (AppSelenium3.chunk_text a.content 300) acc)

/-- What one run of the Search button handler produces:
`articles_data`, `all_events`, the merged `timeline`, and the ordered
trace of every model call it made. -/
structure SearchResult where
  articles_data : List Article
  all_events : List String
  timeline : String
  calls : List Call
deriving DecidableEq

/-- The Search handler of `app_selenium_3.py` (and `app.py`): process the
first 10 entries, extract events per chunk of each surviving article, then
call `merge_events_to_timeline` on `"\n".join(all_events)`. -/
def runSearch (env : SearchEnv) (entries : List Entry) : SearchResult :=
  let articles := processEntries env (entries.take 10)
  let evs := articleEventsLoop env.oracle articles ([], [])
  let mergeInput := String.intercalate "\n" evs.1
  { articles_data := articles
    all_events := evs.1
    timeline := merge_events_to_timeline env.oracle mergeInput
    calls := evs.2 ++ [⟨"gpt-4.1", mergePrompt mergeInput⟩] }

/-! ### Session state and the derived-operation handlers -/

/-- The persisted `st.session_state` fields used after a search. -/
structure SessionState where
  timeline : String
  articles_data : List Article
  translated_timeline : String
  highlights : String
  comparison : String
deriving DecidableEq

/-- The Translate button handler: recomputes only `translated_timeline`
from the stored timeline. -/
def translateHandler (oracle : Oracle) (st : SessionState)
    (target_lang : String) : SessionState :=
  { st with translated_timeline :=
      translate_timeline oracle st.timeline target_lang }

/-- The Show Key Highlights button handler. -/
def highlightsHandler (oracle : Oracle) (st : SessionState) : SessionState :=
  { st with highlights := extract_key_highlights oracle st.timeline }

/-- The Compare Articles button handler. -/
def compareHandler (oracle : Oracle) (st : SessionState) : SessionState :=
  { st with comparison := compare_sources oracle st.articles_data }

/-! ### `resolve_real_url` and the headless-browser collaborator -/

/-- The headless-browser collaborator of `resolve_real_url`.  `mkDriver`
bundles `ChromeDriverManager().install()`, `Service(...)` and
`webdriver.Chrome(...)`, which all run **before** the `try` block.  Each
field is `Except.error` when the corresponding step raises. -/
structure SeleniumEnv where
  mkDriver : Except String Nat
  navigate : Nat → String → Except String Unit
  currentUrl : Nat → Except String String
  quit : Nat → Except String Unit

/-- `resolve_real_url` of `app_selenium_3.py` / `app.py`, with Python's
`try/except/finally` semantics: the bare `except` catches any failure of
`driver.get` or of reading `driver.current_url` and returns the input URL;
driver construction happens before the `try`, so its failure propagates;
`driver.quit()` runs in `finally` and its exception, if any, replaces the
result. -/
def resolve_real_url (env : SeleniumEnv) (google_url : String) :
    Except String String :=
  match env.mkDriver with
  | Except.error e => Except.error e
  | Except.ok d =>
    let tryResult : Except String String :=
      match env.navigate d google_url with
      | Except.error _ => Except.ok google_url
      | Except.ok _ =>
        match env.currentUrl d with
        | Except.error _ => Except.ok google_url
        | Except.ok u => Except.ok u
    match env.quit d with
    | Except.error e => Except.error e
    | Except.ok _ => tryResult

/-! ### Concrete data used by witnesses and counterexamples -/

namespace Examples

def mdW : ArticleMetadata := ⟨"T", "P", "D", "U"⟩

def oracleOk : Oracle := fun _ _ => Except.ok "model output"

def oracleFail : Oracle := fun _ _ => Except.error "quota exceeded"

def entryW : Entry := ⟨"http://gn/1", "Title 1", none, none⟩

/-- An environment in which no article text is extractable. -/
def envNoText : SearchEnv := ⟨id, fun _ => none, oracleOk⟩

def entryA : Entry := ⟨"a", "A", some "day 1", some "P1"⟩

def entryB : Entry := ⟨"bad", "B", none, none⟩

def entryC : Entry := ⟨"c", "C", some "day 2", some "P2"⟩

/-- An environment in which exactly the link `"bad"` has no extractable
text. -/
def envSkip : SearchEnv :=
  ⟨id, fun u => if u = "bad" then none else some ['x'], oracleOk⟩

/-- A browser environment whose driver construction raises. -/
def selBroken : SeleniumEnv :=
  ⟨Except.error "chromedriver install failed", fun _ _ => Except.ok (),
    fun _ => Except.ok "", fun _ => Except.ok ()⟩

/-- A fully working browser environment. -/
def selOk : SeleniumEnv :=
  ⟨Except.ok 0, fun _ _ => Except.ok (),
    fun _ => Except.ok "https://publisher.example/article",
    fun _ => Except.ok ()⟩

def stW : SessionState := ⟨"TL", [⟨"T", "P", "D", "U", ['x']⟩], "", "", ""⟩

end Examples

/-! ### Lemmas about `pyWords` -/

theorem pyWords_nil : pyWords [] = [] := rfl

theorem pyWords_cons_of_space {c : Char} (h : isSpace c) (l : List Char) :
    pyWords (c :: l) = pyWords l := by
  simp [pyWords, h]

theorem pyWords_one {c : Char} (h : ¬ isSpace c) : pyWords [c] = [[c]] := by
  rw [pyWords]
  simp [h]

theorem pyWords_cons_cons_space {c d : Char} (hc : ¬ isSpace c)
    (hd : isSpace d) (ds : List Char) :
    pyWords (c :: d :: ds) = [c] :: pyWords (d :: ds) := by
  rw [pyWords]
  simp [hc, hd]

theorem pyWords_cons_cons_nonspace {c d : Char} {ds : List Char}
    {w : List Char} {t : List (List Char)} (hc : ¬ isSpace c)
    (hd : ¬ isSpace d) (hw : pyWords (d :: ds) = w :: t) :
    pyWords (c :: d :: ds) = (c :: w) :: t := by
  rw [pyWords]
  simp [hc, hd, hw]

theorem pyWords_ne_nil {c : Char} (h : ¬ isSpace c) (l : List Char) :
    pyWords (c :: l) ≠ [] := by
  induction l generalizing c with
  | nil => simp [pyWords_one h]
  | cons d ds ih =>
    by_cases hd : isSpace d
    · simp [pyWords_cons_cons_space h hd]
    · cases hw : pyWords (d :: ds) with
      | nil => exact absurd hw (ih hd)
      | cons w t => simp [pyWords_cons_cons_nonspace h hd hw]

/-- Appending a whitespace character separates cleanly:
`pyWords (a ++ sep :: b) = pyWords a ++ pyWords b`. -/
theorem pyWords_append_space {sep : Char} (hsep : isSpace sep) :
    ∀ (a b : List Char), pyWords (a ++ sep :: b) = pyWords a ++ pyWords b := by
  intro a
  induction a with
  | nil => intro b; simp [pyWords_cons_of_space hsep, pyWords_nil]
  | cons c a' ih =>
    intro b
    by_cases hc : isSpace c
    · simpa [pyWords_cons_of_space hc] using ih b
    · cases a' with
      | nil =>
        simp [pyWords_cons_cons_space hc hsep, pyWords_cons_of_space hsep,
          pyWords_one hc]
      | cons d a'' =>
        by_cases hd : isSpace d
        · have h1 : pyWords (c :: d :: (a'' ++ sep :: b))
              = [c] :: pyWords (d :: (a'' ++ sep :: b)) :=
            pyWords_cons_cons_space hc hd _
          have h2 := ih b
          simp only [List.cons_append] at h2 ⊢
          rw [h1, h2, pyWords_cons_cons_space hc hd]
          simp
        · obtain ⟨w, t, hwt⟩ : ∃ w t, pyWords (d :: a'') = w :: t := by
            cases hw : pyWords (d :: a'') with
            | nil => exact absurd hw (pyWords_ne_nil hd a'')
            | cons w t => exact ⟨w, t, rfl⟩
          have hrec : pyWords (d :: (a'' ++ sep :: b)) = w :: (t ++ pyWords b) := by
            have h2 := ih b
            simp only [List.cons_append] at h2
            rw [h2, hwt]
            rfl
          simp only [List.cons_append]
          rw [pyWords_cons_cons_nonspace hc hd hrec,
            pyWords_cons_cons_nonspace hc hd hwt]
          simp

/-- A list of whitespace characters has no words. -/
theorem pyWords_all_space :
    ∀ {l : List Char}, (∀ c ∈ l, isSpace c) → pyWords l = [] := by
  intro l
  induction l with
  | nil => intro _; rfl
  | cons c cs ih =>
    intro h
    rw [pyWords_cons_of_space (h c (by simp))]
    exact ih fun d hd => h d (by simp [hd])

/-- Trailing whitespace does not change the words. -/
theorem pyWords_append_all_space :
    ∀ (a : List Char) {t : List Char}, (∀ c ∈ t, isSpace c) →
      pyWords (a ++ t) = pyWords a := by
  intro a
  induction a with
  | nil => intro t ht; simpa using pyWords_all_space ht
  | cons c a' ih =>
    intro t ht
    by_cases hc : isSpace c
    · simp only [List.cons_append, pyWords_cons_of_space hc]
      exact ih ht
    · cases a' with
      | nil =>
        cases t with
        | nil => simp
        | cons u t' =>
          have hu : isSpace u := ht u (by simp)
          have hts : pyWords (u :: t') = [] := pyWords_all_space ht
          simp only [List.nil_append, List.cons_append] at *
          rw [pyWords_cons_cons_space hc hu, hts, pyWords_one hc]
      | cons d a'' =>
        by_cases hd : isSpace d
        · have h2 := ih ht
          simp only [List.cons_append] at h2 ⊢
          rw [pyWords_cons_cons_space hc hd, h2,
            pyWords_cons_cons_space hc hd]
        · obtain ⟨w, tl, hwt⟩ : ∃ w tl, pyWords (d :: a'') = w :: tl := by
            cases hw : pyWords (d :: a'') with
            | nil => exact absurd hw (pyWords_ne_nil hd a'')
            | cons w tl => exact ⟨w, tl, rfl⟩
          have hrec : pyWords (d :: (a'' ++ t)) = w :: tl := by
            have h2 := ih ht
            simp only [List.cons_append] at h2
            rw [h2, hwt]
          simp only [List.cons_append]
          rw [pyWords_cons_cons_nonspace hc hd hrec,
            pyWords_cons_cons_nonspace hc hd hwt]

/-- Leading whitespace does not change the words. -/
theorem pyWords_dropWhile_space (l : List Char) :
    pyWords (l.dropWhile isSpace) = pyWords l := by
  induction l with
  | nil => rfl
  | cons c cs ih =>
    by_cases hc : isSpace c
    · rw [List.dropWhile_cons_of_pos (by simpa using hc),
        pyWords_cons_of_space hc]
      exact ih
    · rw [List.dropWhile_cons_of_neg (by simpa using hc)]

/-- Stripping does not change the words. -/
theorem pyWords_pyStrip (l : List Char) : pyWords (pyStrip l) = pyWords l := by
  rw [pyStrip]
  set y := l.dropWhile isSpace with hy
  have hdecomp : y = (y.reverse.dropWhile isSpace).reverse
      ++ (y.reverse.takeWhile isSpace).reverse := by
    conv_lhs => rw [← y.reverse_reverse, ← List.takeWhile_append_dropWhile
      (p := isSpace) (l := y.reverse)]
    rw [List.reverse_append]
  have htail : ∀ c ∈ (y.reverse.takeWhile isSpace).reverse, isSpace c := by
    intro c hc
    exact List.mem_takeWhile_imp (List.mem_reverse.mp hc)
  calc pyWords (y.reverse.dropWhile isSpace).reverse
      = pyWords ((y.reverse.dropWhile isSpace).reverse
          ++ (y.reverse.takeWhile isSpace).reverse) :=
        (pyWords_append_all_space _ htail).symm
    _ = pyWords y := by rw [← hdecomp]
    _ = pyWords l := by rw [hy, pyWords_dropWhile_space]

theorem pyWords_of_pyStrip_nil {l : List Char} (h : pyStrip l = []) :
    pyWords l = [] := by
  rw [← pyWords_pyStrip l, h, pyWords_nil]

/-- A list that is made of words (has a non-whitespace character) has at
least one word. -/
theorem pyWords_ne_nil_of_nonws :
    ∀ {l : List Char}, (∃ c ∈ l, ¬ isSpace c) → pyWords l ≠ [] := by
  intro l
  induction l with
  | nil => rintro ⟨c, hc, _⟩; simp at hc
  | cons d ds ih =>
    rintro ⟨c, hc, hcs⟩
    by_cases hd : isSpace d
    · rw [pyWords_cons_of_space hd]
      rcases List.mem_cons.mp hc with h | h
      · exact absurd (h ▸ hd) hcs
      · exact ih ⟨c, h, hcs⟩
    · exact pyWords_ne_nil hd ds

/-- Conversely, a whitespace-free list yields a non-whitespace witness
whenever it has a word (contrapositive of `pyWords_all_space`). -/
theorem nonws_of_pyWords_ne_nil {l : List Char} (h : pyWords l ≠ []) :
    ∃ c ∈ l, ¬ isSpace c := by
  by_contra hno
  push_neg at hno
  exact h (pyWords_all_space (by simpa using hno))

/-- A non-empty whitespace-free list is a single word. -/
theorem pyWords_single {w : List Char} (hne : w ≠ [])
    (hw : ∀ c ∈ w, ¬ isSpace c) : pyWords w = [w] := by
  induction w with
  | nil => exact absurd rfl hne
  | cons c w' ih =>
    have hc : ¬ isSpace c := hw c (by simp)
    cases w' with
    | nil => exact pyWords_one hc
    | cons d w'' =>
      have hd : ¬ isSpace d := hw d (by simp)
      have := ih (by simp) (fun x hx => hw x (by simp [hx]))
      exact pyWords_cons_cons_nonspace hc hd this

/-- Every word produced by `pyWords` is non-empty and whitespace-free. -/
theorem pyWords_mem_spec :
    ∀ {l : List Char}, ∀ w ∈ pyWords l, w ≠ [] ∧ ∀ c ∈ w, ¬ isSpace c := by
  intro l
  induction l with
  | nil => intro w hw; simp [pyWords_nil] at hw
  | cons c cs ih =>
    intro w hw
    by_cases hc : isSpace c
    · exact ih w (by rwa [pyWords_cons_of_space hc] at hw)
    · cases cs with
      | nil =>
        rw [pyWords_one hc] at hw
        simp at hw
        subst hw
        exact ⟨by simp, by intro x hx; simp at hx; subst hx; exact hc⟩
      | cons d ds =>
        by_cases hd : isSpace d
        · rw [pyWords_cons_cons_space hc hd] at hw
          rcases List.mem_cons.mp hw with h | h
          · subst h
            exact ⟨by simp, by intro x hx; simp at hx; subst hx; exact hc⟩
          · exact ih w h
        · obtain ⟨w₀, t₀, hwt⟩ : ∃ w₀ t₀, pyWords (d :: ds) = w₀ :: t₀ := by
            cases hx : pyWords (d :: ds) with
            | nil => exact absurd hx (pyWords_ne_nil hd ds)
            | cons a b => exact ⟨a, b, rfl⟩
          rw [pyWords_cons_cons_nonspace hc hd hwt] at hw
          rcases List.mem_cons.mp hw with h | h
          · subst h
            have hspec := ih w₀ (by rw [hwt]; simp)
            refine ⟨by simp, ?_⟩
            intro x hx
            rcases List.mem_cons.mp hx with h | h
            · subst h; exact hc
            · exact hspec.2 x h
          · exact ih w (by rw [hwt]; simp [h])

/-- `" ".join` of non-empty whitespace-free words is split back into
exactly those words. -/
theorem pyWords_joinSpace :
    ∀ {ws : List (List Char)},
      (∀ w ∈ ws, w ≠ [] ∧ ∀ c ∈ w, ¬ isSpace c) →
      pyWords (joinSpace ws) = ws := by
  intro ws
  induction ws with
  | nil => intro _; rfl
  | cons w ws' ih =>
    intro h
    have hw := h w (by simp)
    cases ws' with
    | nil => simpa [joinSpace] using pyWords_single hw.1 hw.2
    | cons v vs =>
      have hjoin : joinSpace (w :: v :: vs) = w ++ ' ' :: joinSpace (v :: vs) := rfl
      rw [hjoin, pyWords_append_space (by decide : isSpace ' ') w,
        pyWords_single hw.1 hw.2, ih (fun x hx => h x (by simp [List.mem_cons.mp hx]))]
      rfl

/-! ### Word counting: `cw b l` is the number of words of `l`, where `b`
records whether the character just before `l` was a non-whitespace one. -/

def cw (prevNonSpace : Bool) : List Char → Nat
  | [] => 0
  | c :: cs =>
    if isSpace c then cw false cs
    else (if prevNonSpace then 0 else 1) + cw true cs

/-- The state after scanning `a`, starting from state `b`. -/
def endNS (b : Bool) : List Char → Bool
  | [] => b
  | c :: cs => endNS (! isSpace c) cs

theorem cw_nil (b : Bool) : cw b [] = 0 := rfl

theorem cw_cons_space {c : Char} (hc : isSpace c) (b : Bool) (cs : List Char) :
    cw b (c :: cs) = cw false cs := by
  simp [cw, hc]

theorem cw_cons_nonspace {c : Char} (hc : ¬ isSpace c) (b : Bool) (cs : List Char) :
    cw b (c :: cs) = (if b then 0 else 1) + cw true cs := by
  simp [cw, hc]

theorem endNS_cons (b : Bool) (c : Char) (cs : List Char) :
    endNS b (c :: cs) = endNS (! isSpace c) cs := rfl

theorem cw_append (s : List Char) :
    ∀ (a : List Char) (b : Bool), cw b (a ++ s) = cw b a + cw (endNS b a) s := by
  intro a
  induction a with
  | nil => intro b; simp [cw_nil, endNS]
  | cons c a' ih =>
    intro b
    by_cases hc : isSpace c
    · rw [List.cons_append, cw_cons_space hc, cw_cons_space hc, endNS_cons,
        ih false]
      have : (! isSpace c) = false := by simp [hc]
      rw [this]
    · rw [List.cons_append, cw_cons_nonspace hc, cw_cons_nonspace hc, endNS_cons,
        ih true]
      have : (! isSpace c) = true := by simp [hc]
      rw [this]
      omega

theorem cw_true_le_false : ∀ (l : List Char), cw true l ≤ cw false l := by
  intro l
  induction l with
  | nil => exact le_refl _
  | cons c cs ih =>
    by_cases hc : isSpace c
    · rw [cw_cons_space hc, cw_cons_space hc]
    · rw [cw_cons_nonspace hc, cw_cons_nonspace hc]
      simp

theorem cw_false_le_true_succ : ∀ (l : List Char), cw false l ≤ cw true l + 1 := by
  intro l
  cases l with
  | nil => simp [cw_nil]
  | cons c cs =>
    by_cases hc : isSpace c
    · rw [cw_cons_space hc, cw_cons_space hc]
      omega
    · rw [cw_cons_nonspace hc, cw_cons_nonspace hc]
      simp only [if_pos rfl, if_neg (by simp : ¬ (false = true))]
      omega

/-- The number of words of `l` is `cw false l`. -/
theorem pyWords_length_eq_cw : ∀ (l : List Char), (pyWords l).length = cw false l := by
  intro l
  induction l with
  | nil => rfl
  | cons c cs ih =>
    by_cases hc : isSpace c
    · rw [pyWords_cons_of_space hc, cw_cons_space hc]
      exact ih
    · cases cs with
      | nil => simp [pyWords_one hc, cw_cons_nonspace hc, cw_nil]
      | cons d ds =>
        by_cases hd : isSpace d
        · rw [pyWords_cons_cons_space hc hd, cw_cons_nonspace hc]
          have h2 : cw true (d :: ds) = cw false (d :: ds) := by
            rw [cw_cons_space hd, cw_cons_space hd]
          rw [h2, ← ih]
          simp
          omega
        · obtain ⟨w₀, t₀, hwt⟩ : ∃ w₀ t₀, pyWords (d :: ds) = w₀ :: t₀ := by
            cases hx : pyWords (d :: ds) with
            | nil => exact absurd hx (pyWords_ne_nil hd ds)
            | cons a b => exact ⟨a, b, rfl⟩
          rw [pyWords_cons_cons_nonspace hc hd hwt]
          have hlen : (pyWords (d :: ds)).length = t₀.length + 1 := by
            rw [hwt]; simp
          have hcs : cw false (d :: ds) = 1 + cw true (d :: ds) := by
            rw [cw_cons_nonspace hd false, cw_cons_nonspace hd true]
            simp
          have hcc : cw false (c :: d :: ds) = 1 + cw true (d :: ds) := by
            rw [cw_cons_nonspace hc false]
            simp
          rw [ih] at hlen
          simp only [List.length_cons, hcc]
          omega

/-- Gluing two texts together merges at most one word pair:
`len(a.split()) + len(b.split()) ≤ len((a+b).split()) + 1`. -/
theorem pyWords_glue_length (a b : List Char) :
    (pyWords a).length + (pyWords b).length ≤ (pyWords (a ++ b)).length + 1 := by
  rw [pyWords_length_eq_cw, pyWords_length_eq_cw, pyWords_length_eq_cw,
    cw_append b a false]
  cases h : endNS false a with
  | false => omega
  | true =>
    have h1 := cw_true_le_false b
    have h2 := cw_false_le_true_succ b
    omega

/-- Joining with an explicit space never merges words:
`len((a + " " + b).split()) = len(a.split()) + len(b.split())`. -/
theorem pyWords_space_join_length (a b : List Char) :
    (pyWords (a ++ ' ' :: b)).length = (pyWords a).length + (pyWords b).length := by
  rw [pyWords_append_space (by decide : isSpace ' ') a b]
  simp

/-! ### Lemmas about `sentSplit` -/

theorem sentSplit_ne_nil : ∀ (l : List Char), sentSplit l ≠ [] := by
  intro l
  cases l with
  | nil => simp [sentSplit]
  | cons c cs =>
    rw [sentSplit]
    cases sentSplit cs with
    | nil => simp
    | cons p ps =>
      by_cases hc : isPunct c
      · cases p with
        | nil => simp [hc]
        | cons d p' =>
          by_cases hd : isSpace d <;> simp [hc, hd]
      · simp [hc]

/-- The first part of `sentSplit (c :: cs)` starts with `c`. -/
theorem sentSplit_cons_head (c : Char) (cs : List Char) :
    ∃ p ps, sentSplit (c :: cs) = (c :: p) :: ps := by
  rw [sentSplit]
  cases sentSplit cs with
  | nil => exact ⟨[], [], rfl⟩
  | cons p ps =>
    by_cases hc : isPunct c
    · cases p with
      | nil => exact ⟨[], ps, by simp [hc]⟩
      | cons d p' =>
        by_cases hd : isSpace d
        · exact ⟨[], (d :: p').dropWhile isSpace :: ps, by simp [hc, hd]⟩
        · exact ⟨d :: p', ps, by simp [hc, hd]⟩
    · exact ⟨p, ps, by simp [hc]⟩

theorem not_space_of_punct {c : Char} (h : isPunct c) : ¬ isSpace c := by
  rw [isPunct] at h
  rcases (by simpa using h : (c = '.' ∨ c = '?') ∨ c = '!') with (h | h) | h <;>
    subst h <;> decide

/-- Splitting into sentences preserves the word sequence. -/
theorem sentSplit_words :
    ∀ (l : List Char), ((sentSplit l).map pyWords).flatten = pyWords l := by
  intro l
  induction l with
  | nil => simp [sentSplit, pyWords_nil]
  | cons c cs ih =>
    cases cs with
    | nil =>
      -- sentSplit [c]: the single part [c]
      have h0 : sentSplit ([] : List Char) = [[]] := rfl
      rw [sentSplit, h0]
      by_cases hc : isPunct c
      · simp [hc]
      · simp [hc]
    | cons d ds =>
      obtain ⟨p', ps, hps⟩ := sentSplit_cons_head d ds
      have ih' : pyWords (d :: p') ++ (ps.map pyWords).flatten = pyWords (d :: ds) := by
        have := ih
        rw [hps] at this
        simpa using this
      rw [sentSplit, hps]
      by_cases hc : isPunct c
      · by_cases hd : isSpace d
        · -- separator: new part [c], strip leading spaces of the next part
          simp only [if_pos hc, if_pos hd]
          have hcns : ¬ isSpace c := not_space_of_punct hc
          have hdrop : pyWords ((d :: p').dropWhile isSpace) = pyWords (d :: p') :=
            pyWords_dropWhile_space (d :: p')
          have hcw : pyWords (c :: d :: ds) = [c] :: pyWords (d :: ds) :=
            pyWords_cons_cons_space hcns hd ds
          simp only [List.map_cons, List.flatten_cons, hdrop, hcw, pyWords_one hcns]
          rw [← ih']
          simp
        · -- no split: c is glued onto the first part
          simp only [if_pos hc, if_neg hd]
          have hcns : ¬ isSpace c := not_space_of_punct hc
          obtain ⟨w₀, t₀, hwt⟩ : ∃ w₀ t₀, pyWords (d :: p') = w₀ :: t₀ := by
            cases hx : pyWords (d :: p') with
            | nil => exact absurd hx (pyWords_ne_nil hd p')
            | cons a b => exact ⟨a, b, rfl⟩
          obtain ⟨w₁, t₁, hwt₁⟩ : ∃ w₁ t₁, pyWords (d :: ds) = w₁ :: t₁ := by
            cases hx : pyWords (d :: ds) with
            | nil => exact absurd hx (pyWords_ne_nil hd ds)
            | cons a b => exact ⟨a, b, rfl⟩
          rw [hwt, hwt₁] at ih'
          have hw : w₀ = w₁ := by
            have := ih'
            simp only [List.cons_append] at this
            exact (List.cons.injEq _ _ _ _).mp this |>.1
          have ht : t₀ ++ (ps.map pyWords).flatten = t₁ := by
            have := ih'
            simp only [List.cons_append] at this
            exact (List.cons.injEq _ _ _ _).mp this |>.2
          simp only [List.map_cons, List.flatten_cons,
            pyWords_cons_cons_nonspace hcns hd hwt,
            pyWords_cons_cons_nonspace hcns hd hwt₁]
          rw [hw, ← ht]
          simp
      · -- c not punctuation: glued onto the first part
        simp only [if_neg hc]
        by_cases hcs : isSpace c
        · have h1 : pyWords (c :: d :: p') = pyWords (d :: p') :=
            pyWords_cons_of_space hcs (d :: p')
          have h2 : pyWords (c :: d :: ds) = pyWords (d :: ds) :=
            pyWords_cons_of_space hcs (d :: ds)
          simp only [List.map_cons, List.flatten_cons, h1, h2]
          exact ih'
        · by_cases hd : isSpace d
          · have h1 := pyWords_cons_cons_space hcs hd p'
            have h2 := pyWords_cons_cons_space hcs hd ds
            simp only [List.map_cons, List.flatten_cons, h1, h2]
            rw [← ih']
            simp
          · obtain ⟨w₀, t₀, hwt⟩ : ∃ w₀ t₀, pyWords (d :: p') = w₀ :: t₀ := by
              cases hx : pyWords (d :: p') with
              | nil => exact absurd hx (pyWords_ne_nil hd p')
              | cons a b => exact ⟨a, b, rfl⟩
            obtain ⟨w₁, t₁, hwt₁⟩ : ∃ w₁ t₁, pyWords (d :: ds) = w₁ :: t₁ := by
              cases hx : pyWords (d :: ds) with
              | nil => exact absurd hx (pyWords_ne_nil hd ds)
              | cons a b => exact ⟨a, b, rfl⟩
            rw [hwt, hwt₁] at ih'
            have hw : w₀ = w₁ := by
              have := ih'
              simp only [List.cons_append] at this
              exact (List.cons.injEq _ _ _ _).mp this |>.1
            have ht : t₀ ++ (ps.map pyWords).flatten = t₁ := by
              have := ih'
              simp only [List.cons_append] at this
              exact (List.cons.injEq _ _ _ _).mp this |>.2
            simp only [List.map_cons, List.flatten_cons,
              pyWords_cons_cons_nonspace hcs hd hwt,
              pyWords_cons_cons_nonspace hcs hd hwt₁]
            rw [hw, ← ht]
            simp

/-- Dropping a leading whitespace run keeps any non-whitespace witness. -/
theorem nonws_dropWhile {p : List Char} (h : ∃ x ∈ p, ¬ isSpace x) :
    ∃ x ∈ p.dropWhile isSpace, ¬ isSpace x := by
  induction p with
  | nil => simp at h
  | cons a p' ih =>
    obtain ⟨x, hx, hxs⟩ := h
    by_cases ha : isSpace a
    · rw [List.dropWhile_cons_of_pos (by simpa using ha)]
      rcases List.mem_cons.mp hx with h | h
      · exact absurd (h ▸ ha) hxs
      · exact ih ⟨x, h, hxs⟩
    · rw [List.dropWhile_cons_of_neg (by simpa using ha)]
      exact ⟨x, hx, hxs⟩

/-- Every part of `sentSplit l` other than the last contains a
non-whitespace character (it ends with the `.?!` that triggered the
following split). -/
theorem sentSplit_dropLast_nonws :
    ∀ (l : List Char), ∀ p ∈ (sentSplit l).dropLast, ∃ x ∈ p, ¬ isSpace x := by
  intro l
  induction l with
  | nil => intro p hp; simp [sentSplit] at hp
  | cons c cs ih =>
    intro q hq
    obtain ⟨p, ps, hps⟩ : ∃ p ps, sentSplit cs = p :: ps := by
      cases hx : sentSplit cs with
      | nil => exact absurd hx (sentSplit_ne_nil cs)
      | cons a b => exact ⟨a, b, rfl⟩
    have ihps : ∀ r ∈ (p :: ps).dropLast, ∃ x ∈ r, ¬ isSpace x := by
      intro r hr; exact ih r (by rw [hps]; exact hr)
    rw [sentSplit, hps] at hq
    by_cases hc : isPunct c
    · cases p with
      | nil =>
        -- result ([c]) :: ps
        simp only [if_pos hc] at hq
        cases ps with
        | nil => simp at hq
        | cons r rs =>
          rw [List.dropLast_cons₂] at hq
          rcases List.mem_cons.mp hq with h | h
          · subst h
            exact ⟨c, by simp, not_space_of_punct hc⟩
          · exact ihps q (by rw [List.dropLast_cons₂]; simp [h])
      | cons d p' =>
        by_cases hd : isSpace d
        · -- split: result [c] :: (d :: p').dropWhile isSpace :: ps
          simp only [if_pos hc, if_pos hd] at hq
          rw [List.dropLast_cons₂] at hq
          rcases List.mem_cons.mp hq with h | h
          · subst h
            exact ⟨c, by simp, not_space_of_punct hc⟩
          · cases ps with
            | nil => simp at h
            | cons r rs =>
              rw [List.dropLast_cons₂] at h
              rcases List.mem_cons.mp h with h' | h'
              · subst h'
                have hnp : ∃ x ∈ d :: p', ¬ isSpace x :=
                  ihps (d :: p') (by rw [List.dropLast_cons₂]; simp)
                exact nonws_dropWhile hnp
              · exact ihps q (by rw [List.dropLast_cons₂]; simp [h'])
        · -- glued: result (c :: d :: p') :: ps
          simp only [if_pos hc, if_neg hd] at hq
          cases ps with
          | nil => simp at hq
          | cons r rs =>
            rw [List.dropLast_cons₂] at hq
            rcases List.mem_cons.mp hq with h | h
            · subst h
              exact ⟨c, by simp, not_space_of_punct hc⟩
            · exact ihps q (by rw [List.dropLast_cons₂]; simp [h])
    · -- glued: result (c :: p) :: ps
      simp only [if_neg hc] at hq
      cases ps with
      | nil => simp at hq
      | cons r rs =>
        rw [List.dropLast_cons₂] at hq
        rcases List.mem_cons.mp hq with h | h
        · subst h
          have hnp : ∃ x ∈ p, ¬ isSpace x :=
            ihps p (by rw [List.dropLast_cons₂]; simp)
          obtain ⟨x, hx, hxs⟩ := hnp
          exact ⟨x, by simp [hx], hxs⟩
        · exact ihps q (by rw [List.dropLast_cons₂]; simp [h])

/-! ### Lemmas about `sliceGroups` -/

theorem sliceGroups_flatten (n : Nat) :
    ∀ (l : List α), (sliceGroups n l).flatten = l := by
  have H : ∀ (k : Nat) (l : List α), l.length ≤ k → (sliceGroups n l).flatten = l := by
    intro k
    induction k with
    | zero =>
      intro l hl
      have : l = [] := List.eq_nil_of_length_eq_zero (Nat.le_zero.mp hl)
      subst this
      simp [sliceGroups]
    | succ k ih =>
      intro l hl
      cases l with
      | nil => simp [sliceGroups]
      | cons a t =>
        have hlen : (t.drop (n - 1)).length ≤ k := by
          simp only [List.length_drop]
          simp only [List.length_cons] at hl
          omega
        rw [sliceGroups, List.flatten_cons, ih _ hlen]
        simp [List.take_append_drop]
  exact fun l => H l.length l le_rfl

theorem sliceGroups_length_le (n : Nat) (hn : 0 < n) :
    ∀ (l : List α), ∀ g ∈ sliceGroups n l, g.length ≤ n := by
  have H : ∀ (k : Nat) (l : List α), l.length ≤ k →
      ∀ g ∈ sliceGroups n l, g.length ≤ n := by
    intro k
    induction k with
    | zero =>
      intro l hl
      have : l = [] := List.eq_nil_of_length_eq_zero (Nat.le_zero.mp hl)
      subst this
      intro g hg
      simp [sliceGroups] at hg
    | succ k ih =>
      intro l hl g hg
      cases l with
      | nil => simp [sliceGroups] at hg
      | cons a t =>
        have hlen : (t.drop (n - 1)).length ≤ k := by
          simp only [List.length_drop]
          simp only [List.length_cons] at hl
          omega
        rw [sliceGroups] at hg
        rcases List.mem_cons.mp hg with h | h
        · subst h
          have := List.length_take_le (n - 1) t
          simp only [List.length_cons]
          omega
        · exact ih _ hlen g h
  exact fun l => H l.length l le_rfl

/-! ### Lemmas about `AppSelenium2.chunkLoop` -/

namespace AppSelenium2

/-- The chunk loop loses no words: the words of its output chunks are the
words of the accumulator followed by the words of the pending sentences. -/
theorem chunkLoop_words (max_words : Nat) :
    ∀ (ss : List (List Char)) (cur : List Char),
      ((chunkLoop max_words cur ss).map pyWords).flatten
        = pyWords cur ++ ((ss.map pyWords)).flatten := by
  intro ss
  induction ss with
  | nil =>
    intro cur
    rw [chunkLoop]
    by_cases h : (pyStrip cur).isEmpty
    · have : pyWords cur = [] :=
        pyWords_of_pyStrip_nil (List.isEmpty_iff.mp (by simpa using h))
      simp [h, this]
    · simp [h, pyWords_pyStrip]
  | cons s ss' ih =>
    intro cur
    rw [chunkLoop]
    by_cases h : (pyWords (cur ++ s)).length < max_words
    · rw [if_pos h, ih]
      rw [pyWords_append_space (by decide : isSpace ' ') cur s]
      simp
    · rw [if_neg h]
      simp only [List.map_cons, List.flatten_cons, pyWords_pyStrip, ih s]

/-- Every chunk the loop emits either respects the word bound or consists
of (the words of) a single sentence taken from `L`. -/
theorem chunkLoop_bound (max_words : Nat) (L : List (List Char)) :
    ∀ (ss : List (List Char)) (cur : List Char),
      (∀ s ∈ ss, s ∈ L) →
      ((pyWords cur).length ≤ max_words ∨ ∃ s ∈ L, pyWords cur = pyWords s) →
      ∀ chunk ∈ chunkLoop max_words cur ss,
        (pyWords chunk).length ≤ max_words ∨ ∃ s ∈ L, pyWords chunk = pyWords s := by
  intro ss
  induction ss with
  | nil =>
    intro cur _ hcur chunk hchunk
    rw [chunkLoop] at hchunk
    by_cases h : (pyStrip cur).isEmpty
    · simp [h] at hchunk
    · simp [h] at hchunk
      subst hchunk
      rw [pyWords_pyStrip]
      exact hcur
  | cons s ss' ih =>
    intro cur hss hcur chunk hchunk
    rw [chunkLoop] at hchunk
    by_cases h : (pyWords (cur ++ s)).length < max_words
    · rw [if_pos h] at hchunk
      refine ih (cur ++ ' ' :: s) (fun x hx => hss x (by simp [hx])) ?_ chunk hchunk
      left
      rw [pyWords_space_join_length]
      have := pyWords_glue_length cur s
      omega
    · rw [if_neg h] at hchunk
      rcases List.mem_cons.mp hchunk with h' | h'
      · subst h'
        rw [pyWords_pyStrip]
        exact hcur
      · exact ih s (fun x hx => hss x (by simp [hx]))
          (Or.inr ⟨s, hss s (by simp), rfl⟩) chunk h'

/-- If a character list has a non-whitespace character, stripping it
leaves a non-empty list. -/
theorem pyStrip_ne_nil_of_nonws {l : List Char} (h : ∃ c ∈ l, ¬ isSpace c) :
    pyStrip l ≠ [] := by
  intro hnil
  exact pyWords_ne_nil_of_nonws h (pyWords_of_pyStrip_nil hnil)

/-- If the accumulator has real content whenever sentences remain, and
every non-last pending sentence has real content, then the loop never
emits an empty chunk. -/
theorem chunkLoop_ne_nil (max_words : Nat) :
    ∀ (ss : List (List Char)) (cur : List Char),
      (ss = [] ∨ ∃ c ∈ cur, ¬ isSpace c) →
      (∀ s ∈ ss.dropLast, ∃ c ∈ s, ¬ isSpace c) →
      ∀ chunk ∈ chunkLoop max_words cur ss, chunk ≠ [] := by
  intro ss
  induction ss with
  | nil =>
    intro cur _ _ chunk hchunk
    rw [chunkLoop] at hchunk
    by_cases h : (pyStrip cur).isEmpty
    · simp [h] at hchunk
    · simp [h] at hchunk
      subst hchunk
      simpa using h
  | cons s ss' ih =>
    intro cur hcur hss chunk hchunk
    have hcur' : ∃ c ∈ cur, ¬ isSpace c := by
      rcases hcur with h | h
      · exact absurd h (by simp)
      · exact h
    rw [chunkLoop] at hchunk
    by_cases h : (pyWords (cur ++ s)).length < max_words
    · rw [if_pos h] at hchunk
      refine ih (cur ++ ' ' :: s) ?_ ?_ chunk hchunk
      · right
        obtain ⟨c, hc, hcs⟩ := hcur'
        exact ⟨c, by simp [hc], hcs⟩
      · intro x hx
        refine hss x ?_
        cases ss' with
        | nil => simp at hx
        | cons r rs => rw [List.dropLast_cons₂]; simp [hx]
    · rw [if_neg h] at hchunk
      rcases List.mem_cons.mp hchunk with h' | h'
      · subst h'
        exact pyStrip_ne_nil_of_nonws hcur'
      · refine ih s ?_ ?_ chunk h'
        · cases ss' with
          | nil => exact Or.inl rfl
          | cons r rs =>
            right
            exact hss s (by rw [List.dropLast_cons₂]; simp)
        · intro x hx
          refine hss x ?_
          cases ss' with
          | nil => simp at hx
          | cons r rs => rw [List.dropLast_cons₂]; simp [hx]

end AppSelenium2

/-! ### Lemmas about the search handler -/

theorem processEntries_eq_filterMap (env : SearchEnv) :
    ∀ (es : List Entry),
      processEntries env es
        = es.filterMap
            (fun e => (env.extract (env.resolve e.link)).map (mkArticle env e)) := by
  intro es
  induction es with
  | nil => rfl
  | cons e es ih =>
    cases h : env.extract (env.resolve e.link) with
    | none => simp [processEntries, h, ih]
    | some t => simp [processEntries, h, ih]

theorem processEntries_append (env : SearchEnv) (xs ys : List Entry) :
    processEntries env (xs ++ ys)
      = processEntries env xs ++ processEntries env ys := by
  simp [processEntries_eq_filterMap]

theorem processEntries_skip (env : SearchEnv) {e : Entry}
    (h : env.extract (env.resolve e.link) = none) (pre post : List Entry) :
    processEntries env (pre ++ e :: post)
      = processEntries env pre ++ processEntries env post := by
  rw [processEntries_append]
  congr 1
  simp [processEntries, h]

theorem chunkEventsLoop_spec (oracle : Oracle) (md : ArticleMetadata) :
    ∀ (cs : List (List Char)) (acc : List String × List Call),
      chunkEventsLoop oracle md cs acc
        = (acc.1 ++ cs.map (fun c => extract_events_from_chunk oracle c md),
           acc.2 ++ cs.map (fun c => Call.mk "gpt-4.1-mini" (extractPrompt c md))) := by
  intro cs
  induction cs with
  | nil => intro acc; simp [chunkEventsLoop]
  | cons c cs ih =>
    intro acc
    rw [chunkEventsLoop, ih]
    simp

/-- The per-article `all_events` contribution, in article order then chunk
order. -/
def eventsOf (oracle : Oracle) (articles : List Article) : List String :=
  articles.flatMap fun a =>
    (AppSelenium3.chunk_text a.content 300).map
      fun c => extract_events_from_chunk oracle c (metadataOf a)

/-- The per-article extractor-call trace, in article order then chunk
order. -/
def extractCallsOf (articles : List Article) : List Call :=
  articles.flatMap fun a =>
    (AppSelenium3.chunk_text a.content 300).map
      fun c => Call.mk "gpt-4.1-mini" (extractPrompt c (metadataOf a))

theorem articleEventsLoop_spec (oracle : Oracle) :
    ∀ (articles : List Article) (acc : List String × List Call),
      articleEventsLoop oracle articles acc
        = (acc.1 ++ eventsOf oracle articles,
           acc.2 ++ extractCallsOf articles) := by
  intro articles
  induction articles with
  | nil => intro acc; simp [articleEventsLoop, eventsOf, extractCallsOf]
  | cons a rest ih =>
    intro acc
    rw [articleEventsLoop, chunkEventsLoop_spec, ih]
    simp [eventsOf, extractCallsOf]

theorem runSearch_articles (env : SearchEnv) (entries : List Entry) :
    (runSearch env entries).articles_data = processEntries env (entries.take 10) := rfl

theorem runSearch_all_events (env : SearchEnv) (entries : List Entry) :
    (runSearch env entries).all_events
      = eventsOf env.oracle (runSearch env entries).articles_data := by
  rw [runSearch_articles]
  show (articleEventsLoop env.oracle (processEntries env (entries.take 10)) ([], [])).1
    = eventsOf env.oracle (processEntries env (entries.take 10))
  rw [articleEventsLoop_spec]
  simp

theorem runSearch_calls (env : SearchEnv) (entries : List Entry) :
    (runSearch env entries).calls
      = extractCallsOf (runSearch env entries).articles_data
        ++ [Call.mk "gpt-4.1"
            (mergePrompt (String.intercalate "\n" (runSearch env entries).all_events))] := by
  rw [runSearch_articles, runSearch_all_events, runSearch_articles]
  show (articleEventsLoop env.oracle (processEntries env (entries.take 10)) ([], [])).2
      ++ [Call.mk "gpt-4.1" (mergePrompt (String.intercalate "\n"
        (articleEventsLoop env.oracle (processEntries env (entries.take 10)) ([], [])).1))]
    = _
  rw [articleEventsLoop_spec]
  simp

theorem runSearch_timeline (env : SearchEnv) (entries : List Entry) :
    (runSearch env entries).timeline
      = merge_events_to_timeline env.oracle
          (String.intercalate "\n" (runSearch env entries).all_events) := rfl

/-- No extractor call uses the merge model. -/
theorem extractCallsOf_model (articles : List Article) :
    ∀ c ∈ extractCallsOf articles, c.model = "gpt-4.1-mini" := by
  intro c hc
  rw [extractCallsOf] at hc
  simp only [List.mem_flatMap, List.mem_map] at hc
  obtain ⟨a, _, ch, _, hc⟩ := hc
  rw [← hc]

/-! ### Claim theorems -/

/-- Claim C2: for every input text and every positive word bound, chunking
is lossless — concatenating the chunks produced by `chunk_text`
(normalising whitespace at chunk boundaries) yields exactly the word
sequence of the source text, with no word lost and none duplicated, under
both the fixed word-window policy (`app_selenium_3.py` / `app.py`) and the
sentence-boundary-aware policy (`archive/app_selenium_2.py`); and for
empty input text `chunk_text` returns an empty chunk sequence. -/
theorem chunking_lossless (text : List Char) (max_words : Nat)
    (hpos : 0 < max_words) :
    ((AppSelenium3.chunk_text text max_words).map pyWords).flatten = pyWords text
    ∧ ((AppSelenium2.chunk_text text max_words).map pyWords).flatten = pyWords text
    ∧ AppSelenium3.chunk_text [] max_words = []
    ∧ AppSelenium2.chunk_text [] max_words = [] := by
  refine ⟨?_, ?_, ?_, ?_⟩
  · rw [AppSelenium3.chunk_text, List.map_map]
    have hmap : ∀ g ∈ sliceGroups max_words (pyWords text),
        (pyWords ∘ joinSpace) g = g := by
      intro g hg
      have hmem : ∀ w ∈ g, w ≠ [] ∧ ∀ c ∈ w, ¬ isSpace c := by
        intro w hw
        have hwj : w ∈ (sliceGroups max_words (pyWords text)).flatten :=
          List.mem_flatten.mpr ⟨g, hg, hw⟩
        rw [sliceGroups_flatten] at hwj
        exact pyWords_mem_spec w hwj
      simpa using pyWords_joinSpace hmem
    rw [List.map_congr_left hmap]
    simp only [List.map_id_fun', id_eq, List.map_id']
    exact sliceGroups_flatten max_words (pyWords text)
  · rw [AppSelenium2.chunk_text, AppSelenium2.chunkLoop_words]
    simp [pyWords_nil, sentSplit_words]
  · simp [AppSelenium3.chunk_text, pyWords_nil, sliceGroups]
  · have h1 : (pyWords (([] : List Char) ++ [])).length < max_words := by
      simpa [pyWords_nil] using hpos
    rw [AppSelenium2.chunk_text]
    rw [show sentSplit [] = [[]] from rfl]
    rw [AppSelenium2.chunkLoop, if_pos h1, AppSelenium2.chunkLoop,
      if_pos (by rfl : (pyStrip (([] : List Char) ++ ' ' :: [])).isEmpty = true)]

theorem chunking_lossless_witness :
    0 < 3 ∧
    (((AppSelenium3.chunk_text "Hi there. Bye.".toList 3).map pyWords).flatten
        = pyWords "Hi there. Bye.".toList
      ∧ ((AppSelenium2.chunk_text "Hi there. Bye.".toList 3).map pyWords).flatten
        = pyWords "Hi there. Bye.".toList
      ∧ AppSelenium3.chunk_text [] 3 = []
      ∧ AppSelenium2.chunk_text [] 3 = []) :=
  ⟨by decide, chunking_lossless "Hi there. Bye.".toList 3 (by decide)⟩

/-- Claim C6: for every input text and positive word bound, no chunk
produced by `chunk_text` exceeds the bound, except (under the sentence
policy) a chunk that consists of a single sentence, which alone may
exceed it; under the fixed word-window policy no chunk ever exceeds the
bound. -/
theorem chunk_bound (text : List Char) (max_words : Nat)
    (hpos : 0 < max_words) :
    (∀ chunk ∈ AppSelenium3.chunk_text text max_words,
      (pyWords chunk).length ≤ max_words)
    ∧ (∀ chunk ∈ AppSelenium2.chunk_text text max_words,
      (pyWords chunk).length ≤ max_words
        ∨ ∃ s ∈ sentSplit text, pyWords chunk = pyWords s) := by
  constructor
  · intro chunk hchunk
    rw [AppSelenium3.chunk_text] at hchunk
    obtain ⟨g, hg, hjoin⟩ := List.mem_map.mp hchunk
    have hmem : ∀ w ∈ g, w ≠ [] ∧ ∀ c ∈ w, ¬ isSpace c := by
      intro w hw
      have hwj : w ∈ (sliceGroups max_words (pyWords text)).flatten :=
        List.mem_flatten.mpr ⟨g, hg, hw⟩
      rw [sliceGroups_flatten] at hwj
      exact pyWords_mem_spec w hwj
    rw [← hjoin, pyWords_joinSpace hmem]
    exact sliceGroups_length_le max_words hpos _ g hg
  · intro chunk hchunk
    exact AppSelenium2.chunkLoop_bound max_words (sentSplit text)
      (sentSplit text) [] (fun s hs => hs)
      (Or.inl (by simp [pyWords_nil])) chunk hchunk

theorem chunk_bound_witness :
    0 < 3 ∧
    ((∀ chunk ∈ AppSelenium3.chunk_text "Hi there. Bye.".toList 3,
        (pyWords chunk).length ≤ 3)
      ∧ (∀ chunk ∈ AppSelenium2.chunk_text "Hi there. Bye.".toList 3,
        (pyWords chunk).length ≤ 3
          ∨ ∃ s ∈ sentSplit "Hi there. Bye.".toList,
              pyWords chunk = pyWords s)) :=
  ⟨by decide, chunk_bound "Hi there. Bye.".toList 3 (by decide)⟩

/-- Claim C10: under the sentence-boundary policy, if the first sentence
of the text alone reaches the word bound, `chunk_text` emits the empty
string as its first chunk, and only there — every later chunk is
non-empty. -/
theorem sentence_policy_empty_first_chunk (text : List Char)
    (max_words : Nat) (hpos : 0 < max_words) (s : List Char)
    (ss : List (List Char)) (hsplit : sentSplit text = s :: ss)
    (hbig : max_words ≤ (pyWords s).length) :
    (AppSelenium2.chunk_text text max_words).head? = some []
    ∧ ∀ chunk ∈ (AppSelenium2.chunk_text text max_words).tail, chunk ≠ [] := by
  have hcond : ¬ (pyWords (([] : List Char) ++ s)).length < max_words := by
    simpa using not_lt.mpr hbig
  rw [AppSelenium2.chunk_text, hsplit, AppSelenium2.chunkLoop, if_neg hcond]
  have hstrip : pyStrip ([] : List Char) = [] := rfl
  constructor
  · rw [hstrip]
    rfl
  · intro chunk hchunk
    simp only [List.tail_cons] at hchunk
    have hwitness : ∃ c ∈ s, ¬ isSpace c := by
      apply nonws_of_pyWords_ne_nil
      intro hnil
      rw [hnil] at hbig
      simp at hbig
      omega
    refine AppSelenium2.chunkLoop_ne_nil max_words ss s (Or.inr hwitness)
      ?_ chunk hchunk
    intro x hx
    refine sentSplit_dropLast_nonws text x ?_
    rw [hsplit]
    cases ss with
    | nil => simp at hx
    | cons r rs =>
      rw [List.dropLast_cons₂]
      simp [hx]

theorem sentence_policy_empty_first_chunk_witness :
    0 < 2
    ∧ sentSplit "One two three. Four.".toList
        = ["One two three.".toList, "Four.".toList]
    ∧ 2 ≤ (pyWords "One two three.".toList).length
    ∧ ((AppSelenium2.chunk_text "One two three. Four.".toList 2).head? = some []
      ∧ ∀ chunk ∈ (AppSelenium2.chunk_text "One two three. Four.".toList 2).tail,
          chunk ≠ []) :=
  ⟨by decide, by decide, by decide,
    sentence_policy_empty_first_chunk "One two three. Four.".toList 2
      (by decide) "One two three.".toList ["Four.".toList] (by decide) (by decide)⟩

theorem intercalate_newline_nil : String.intercalate "\n" [] = "" := rfl

/-- Claim C5: for every run, the merge model is invoked exactly once, and
its input is the newline-join of all raw event records produced across
every chunk of every successfully-extracted article (article order, then
chunk order within an article) — a single call, not a batched reduction. -/
theorem merge_single_call_full_input (env : SearchEnv) (entries : List Entry) :
    ((runSearch env entries).calls.filter (fun c => c.model == "gpt-4.1"))
      = [Call.mk "gpt-4.1"
          (mergePrompt (String.intercalate "\n" (runSearch env entries).all_events))]
    ∧ (runSearch env entries).all_events
      = (runSearch env entries).articles_data.flatMap
          (fun a => (AppSelenium3.chunk_text a.content 300).map
            (fun c => extract_events_from_chunk env.oracle c (metadataOf a)))
    ∧ (runSearch env entries).timeline
      = merge_events_to_timeline env.oracle
          (String.intercalate "\n" (runSearch env entries).all_events) := by
  refine ⟨?_, ?_, runSearch_timeline env entries⟩
  · rw [runSearch_calls, List.filter_append]
    have h1 : (extractCallsOf
        (runSearch env entries).articles_data).filter
          (fun c => c.model == "gpt-4.1") = [] := by
      rw [List.filter_eq_nil_iff]
      intro c hc
      have hm := extractCallsOf_model _ c hc
      simp [hm]
    rw [h1]
    simp
  · rw [runSearch_all_events]
    rfl

/-- Claim C1 counterexample: with one feed entry whose text is not
extractable, `articles_data` is empty, yet the run still invokes the
merge model — on the empty event set — instead of taking a distinct
zero-results path that avoids the merge. -/
theorem no_articles_counterexample :
    (runSearch Examples.envNoText [Examples.entryW]).articles_data = []
    ∧ (runSearch Examples.envNoText [Examples.entryW]).calls
        = [Call.mk "gpt-4.1" (mergePrompt "")] := by
  constructor <;> rfl

/-- Claim C1 (amended): when no article yields extractable text, the run
does not report a distinct zero-results outcome — the merge step is still
invoked, exactly once, on the empty string, and its output is stored as
the session's timeline. -/
theorem no_articles_merge_on_empty (env : SearchEnv) (entries : List Entry)
    (h : (runSearch env entries).articles_data = []) :
    (runSearch env entries).all_events = []
    ∧ (runSearch env entries).calls = [Call.mk "gpt-4.1" (mergePrompt "")]
    ∧ (runSearch env entries).timeline
        = ask_gpt env.oracle (mergePrompt "") "gpt-4.1" := by
  have hev : (runSearch env entries).all_events = [] := by
    rw [runSearch_all_events, h]
    rfl
  refine ⟨hev, ?_, ?_⟩
  · rw [runSearch_calls, h, hev]
    rfl
  · rw [runSearch_timeline, hev]
    rfl

theorem no_articles_merge_on_empty_witness :
    (runSearch Examples.envNoText [Examples.entryW]).articles_data = []
    ∧ ((runSearch Examples.envNoText [Examples.entryW]).all_events = []
      ∧ (runSearch Examples.envNoText [Examples.entryW]).calls
          = [Call.mk "gpt-4.1" (mergePrompt "")]
      ∧ (runSearch Examples.envNoText [Examples.entryW]).timeline
          = ask_gpt Examples.envNoText.oracle (mergePrompt "") "gpt-4.1") :=
  ⟨rfl, no_articles_merge_on_empty Examples.envNoText [Examples.entryW] rfl⟩

/-- Claim C3 counterexample: the `extract_events_from_chunk` of
`archive/app_selenium_2.py` — one of the claim's cited sources — has no
`try/except`, so a model-call exception propagates past the extractor
boundary instead of being returned as a marked error string. -/
theorem extractor_v2_propagates_counterexample :
    AppSelenium2.extract_events_from_chunk Examples.oracleFail ['x']
        Examples.mdW
      = Except.error "quota exceeded" := rfl

/-- Claim C3 (amended): in `app_selenium_3.py` / `app.py` the per-chunk
extractor goes through `ask_gpt`, so for every chunk, metadata and
exception raised by the model call it does not propagate the exception —
it returns the fixed-marker error string, and, like any other record,
that extractor result is an element of the `all_events` list joined into
the merge input.  In the `archive/app_selenium_2.py` variant, however,
the extractor has no `try/except` and the exception propagates. -/
theorem extractor_absorbs_errors :
    (∀ (oracle : Oracle) (chunk : List Char) (md : ArticleMetadata)
        (e : String),
      oracle "gpt-4.1-mini" (extractPrompt chunk md) = Except.error e →
      extract_events_from_chunk oracle chunk md = "[GPT Error] " ++ e)
    ∧ (∀ (env : SearchEnv) (entries : List Entry) (a : Article)
        (chunk : List Char),
        a ∈ (runSearch env entries).articles_data →
        chunk ∈ AppSelenium3.chunk_text a.content 300 →
        extract_events_from_chunk env.oracle chunk (metadataOf a)
          ∈ (runSearch env entries).all_events)
    ∧ ∀ (oracle : Oracle) (chunk : List Char) (md : ArticleMetadata)
        (e : String),
        oracle "gpt-4.1-mini" (AppSelenium2.extractPrompt chunk md)
          = Except.error e →
        AppSelenium2.extract_events_from_chunk oracle chunk md
          = Except.error e := by
  refine ⟨?_, ?_, ?_⟩
  · intro oracle chunk md e h
    rw [extract_events_from_chunk, ask_gpt, h]
  · intro env entries a chunk ha hchunk
    rw [runSearch_all_events, eventsOf]
    exact List.mem_flatMap.mpr ⟨a, ha, List.mem_map.mpr ⟨chunk, hchunk, rfl⟩⟩
  · intro oracle chunk md e h
    rw [AppSelenium2.extract_events_from_chunk, h]

theorem extractor_absorbs_errors_witness :
    (Examples.oracleFail "gpt-4.1-mini" (extractPrompt ['x'] Examples.mdW)
        = Except.error "quota exceeded"
      ∧ extract_events_from_chunk Examples.oracleFail ['x'] Examples.mdW
        = "[GPT Error] " ++ "quota exceeded")
    ∧ (Examples.oracleFail "gpt-4.1-mini"
          (AppSelenium2.extractPrompt ['y'] Examples.mdW)
        = Except.error "quota exceeded"
      ∧ AppSelenium2.extract_events_from_chunk Examples.oracleFail ['y']
          Examples.mdW
        = Except.error "quota exceeded") :=
  ⟨⟨rfl, extractor_absorbs_errors.1 Examples.oracleFail ['x'] Examples.mdW
      "quota exceeded" rfl⟩,
   ⟨rfl, extractor_absorbs_errors.2.2 Examples.oracleFail ['y'] Examples.mdW
      "quota exceeded" rfl⟩⟩

/-- Claim C4: if the model call made by the merge step raises,
`merge_events_to_timeline` returns the fixed error marker followed by the
failure reason — a visibly marked error string, never a partial or
silently-empty timeline presented as a complete result. -/
theorem merge_failure_marked (oracle : Oracle) (events_list e : String)
    (h : oracle "gpt-4.1" (mergePrompt events_list) = Except.error e) :
    merge_events_to_timeline oracle events_list = "[GPT Error] " ++ e := by
  rw [merge_events_to_timeline, ask_gpt, h]

theorem merge_failure_marked_witness :
    Examples.oracleFail "gpt-4.1" (mergePrompt "E1\nE2")
        = Except.error "quota exceeded"
    ∧ merge_events_to_timeline Examples.oracleFail "E1\nE2"
        = "[GPT Error] " ++ "quota exceeded" :=
  ⟨rfl, merge_failure_marked Examples.oracleFail "E1\nE2" "quota exceeded" rfl⟩

/-- Claim C7 counterexample: driver construction
(`ChromeDriverManager().install()`, `webdriver.Chrome(...)`) runs before
the `try` block of `resolve_real_url`, so when it raises the function
propagates the exception upward instead of returning the original URL. -/
theorem resolve_real_url_counterexample :
    resolve_real_url Examples.selBroken
        "https://news.google.com/rss/articles/x"
      = Except.error "chromedriver install failed" := rfl

/-- Claim C7 (amended): provided driver construction and the `finally`
`driver.quit()` succeed, `resolve_real_url` never raises — it returns the
browser's current URL when navigation and the URL read succeed, and the
original URL unchanged otherwise.  (A failure of driver construction or of
`quit()` propagates upward, as the counterexample shows.) -/
theorem resolve_real_url_no_raise (env : SeleniumEnv) (url : String)
    (d : Nat) (hmk : env.mkDriver = Except.ok d)
    (hquit : env.quit d = Except.ok ()) :
    ∃ r, resolve_real_url env url = Except.ok r
      ∧ (r = url ∨ env.currentUrl d = Except.ok r) := by
  cases hn : env.navigate d url with
  | error e =>
    exact ⟨url, by simp [resolve_real_url, hmk, hquit, hn], Or.inl rfl⟩
  | ok u =>
    cases hu : env.currentUrl d with
    | error e =>
      exact ⟨url, by simp [resolve_real_url, hmk, hquit, hn, hu], Or.inl rfl⟩
    | ok r =>
      exact ⟨r, by simp [resolve_real_url, hmk, hquit, hn, hu], Or.inr rfl⟩

theorem resolve_real_url_no_raise_witness :
    Examples.selOk.mkDriver = Except.ok 0
    ∧ Examples.selOk.quit 0 = Except.ok ()
    ∧ ∃ r, resolve_real_url Examples.selOk "https://news.google.com/a"
          = Except.ok r
        ∧ (r = "https://news.google.com/a"
          ∨ Examples.selOk.currentUrl 0 = Except.ok r) :=
  ⟨rfl, rfl,
    resolve_real_url_no_raise Examples.selOk "https://news.google.com/a" 0
      rfl rfl⟩

/-- Claim C8: the search handler processes at most the first 10 feed
entries, and `articles_data` consists exactly of the successful
extractions among them, in order: an entry whose extraction fails is
skipped while the remaining entries are still processed, so an extraction
failure never aborts the run. -/
theorem search_cap_and_skip (env : SearchEnv) (entries : List Entry) :
    (runSearch env entries).articles_data.length ≤ 10
    ∧ (runSearch env entries).articles_data
        = (entries.take 10).filterMap
            (fun e => (env.extract (env.resolve e.link)).map (mkArticle env e))
    ∧ ∀ (pre post : List Entry) (e : Entry),
        entries.take 10 = pre ++ e :: post →
        env.extract (env.resolve e.link) = none →
        (runSearch env entries).articles_data
          = processEntries env pre ++ processEntries env post := by
  refine ⟨?_, ?_, ?_⟩
  · rw [runSearch_articles, processEntries_eq_filterMap]
    calc (((entries.take 10)).filterMap _).length
        ≤ (entries.take 10).length := List.length_filterMap_le _ _
      _ ≤ 10 := List.length_take_le 10 entries
  · rw [runSearch_articles, processEntries_eq_filterMap]
  · intro pre post e htake hext
    rw [runSearch_articles, htake, processEntries_skip env hext]

theorem search_cap_and_skip_witness :
    [Examples.entryA, Examples.entryB, Examples.entryC].take 10
        = [Examples.entryA] ++ Examples.entryB :: [Examples.entryC]
    ∧ Examples.envSkip.extract
        (Examples.envSkip.resolve Examples.entryB.link) = none
    ∧ (runSearch Examples.envSkip
        [Examples.entryA, Examples.entryB, Examples.entryC]).articles_data
        = processEntries Examples.envSkip [Examples.entryA]
          ++ processEntries Examples.envSkip [Examples.entryC] :=
  ⟨rfl, by decide,
    (search_cap_and_skip Examples.envSkip
      [Examples.entryA, Examples.entryB, Examples.entryC]).2.2
      [Examples.entryA] [Examples.entryC] Examples.entryB rfl (by decide)⟩

/-- Claim C9: the derived operations leave the stored session artifacts
they read unchanged — translate (with any target language, any number of
times), highlights and compare each write only their own cached derived
field, never the stored timeline and never the stored article data. -/
theorem derived_ops_frame (oracle : Oracle) (st : SessionState)
    (lang lang₂ : String) :
    ((translateHandler oracle st lang).timeline = st.timeline
      ∧ (translateHandler oracle st lang).articles_data = st.articles_data
      ∧ (translateHandler oracle st lang).highlights = st.highlights
      ∧ (translateHandler oracle st lang).comparison = st.comparison)
    ∧ ((highlightsHandler oracle st).timeline = st.timeline
      ∧ (highlightsHandler oracle st).articles_data = st.articles_data
      ∧ (highlightsHandler oracle st).translated_timeline
          = st.translated_timeline
      ∧ (highlightsHandler oracle st).comparison = st.comparison)
    ∧ ((compareHandler oracle st).timeline = st.timeline
      ∧ (compareHandler oracle st).articles_data = st.articles_data
      ∧ (compareHandler oracle st).translated_timeline
          = st.translated_timeline
      ∧ (compareHandler oracle st).highlights = st.highlights)
    ∧ ((translateHandler oracle (translateHandler oracle st lang) lang₂).timeline
          = st.timeline
      ∧ (translateHandler oracle
          (translateHandler oracle st lang) lang₂).articles_data
          = st.articles_data) :=
  ⟨⟨rfl, rfl, rfl, rfl⟩, ⟨rfl, rfl, rfl, rfl⟩, ⟨rfl, rfl, rfl, rfl⟩,
    rfl, rfl⟩


end NewsOrchestrator
